import Mathlib

/-!
Shallow embedding of the value/expression model of a CQL statement library
(file `src/common.rs`), together with proofs about its quoting transforms,
rendering functions and predicate-grouping utilities.

Rust `String` is modelled by Lean `String` (a list of characters); Rust
`u64` by `Nat`; `Vec<T>` by `List T`; `Option<T>` by `Option T`;
`BTreeMap` by a key-sorted association list; `HashSet` by `Finset`.
-/

/-- The single-quote character (code point 39). -/
def squote : Char := Char.ofNat 39

/-- The single-quote character as a one-character string. -/
def squoteStr : String := String.mk [squote]

/-- Models Rust `str::contains(single-quote char)` on the character list. -/
def containsQuote : List Char → Bool
  | c :: rest => c == squote || containsQuote rest
  | [] => false

/-- Models Rust `str::contains("$$")`: substring search for two adjacent dollar signs. -/
def containsDollarDollar : List Char → Bool
  | c1 :: c2 :: rest => (c1 == '$' && c2 == '$') || containsDollarDollar (c2 :: rest)
  | _ => false

/-- Models Rust `str::starts_with(single-quote char)`. -/
def startsWithQuote : List Char → Bool
  | c :: _ => c == squote
  | [] => false

/-- Models Rust `str::starts_with("$$")`. -/
def startsWithDollarDollar : List Char → Bool
  | c1 :: c2 :: _ => c1 == '$' && c2 == '$'
  | _ => false

/-- Models Rust `str::replace(doubled-single-quote, single-quote)`:
left-to-right non-overlapping replacement of each doubled single-quote by one. -/
def replaceDoubledQuote : List Char → List Char
  | c1 :: c2 :: rest =>
    if c1 = squote ∧ c2 = squote then squote :: replaceDoubledQuote rest
    else c1 :: replaceDoubledQuote (c2 :: rest)
  | l => l

/-- Models Rust `str::replace(single-quote, doubled-single-quote)`:
doubles every single-quote character. -/
def doubleQuotes : List Char → List Char
  | c :: rest =>
    if c = squote then squote :: squote :: doubleQuotes rest
    else c :: doubleQuotes rest
  | [] => []

/-- The `Operand` enumeration of `common.rs`: an object on either side of an operator. -/
inductive Operand where
  | Const : String → Operand
  | Map : List (String × String) → Operand
  | Set : List String → Operand
  | List : List String → Operand
  | Tuple : List Operand → Operand
  | Column : String → Operand
  | Func : String → Operand
  | Param : String → Operand
  | Null : Operand
  | Collection : List Operand → Operand

/-- `Operand::unescape` of `common.rs`: if the value starts with a single-quote,
drop the first and last characters (via the char iterator, which yields nothing
when exhausted) and replace doubled single-quotes; if it starts with `$$`, drop
the first two and last two characters; otherwise return the value unchanged. -/
def Operand.unescape (value : String) : String :=
  if startsWithQuote value.data then
    String.mk (replaceDoubledQuote ((value.data.drop 1).dropLast))
  else if startsWithDollarDollar value.data then
    String.mk (((value.data.drop 2).dropLast).dropLast)
  else
    value

/-- `Operand::escape` of `common.rs`: if the text contains a single-quote and
also `$$`, double every single-quote and wrap in single-quotes; if it contains a
single-quote but no `$$`, wrap in `$$`; otherwise return the text as a constant
unchanged. -/
def Operand.escape (txt : String) : Operand :=
  if containsQuote txt.data then
    if containsDollarDollar txt.data then
      Operand.Const (squoteStr ++ String.mk (doubleQuotes txt.data) ++ squoteStr)
    else
      Operand.Const ("$$" ++ txt ++ "$$")
  else
    Operand.Const txt

/-- `impl Display for Operand` of `common.rs`. `itertools::join(", ")` is
modelled by `String.intercalate ", "`. -/
def Operand.display : Operand → String
  | .Const text => text
  | .Map entries =>
    "\x7b" ++ String.intercalate ", " (entries.map (fun p => p.1 ++ ":" ++ p.2)) ++ "\x7d"
  | .Set values => "\x7b" ++ String.intercalate ", " values ++ "\x7d"
  | .List values => "[" ++ String.intercalate ", " values ++ "]"
  | .Tuple values =>
    "(" ++ String.intercalate ", " (values.attach.map (fun v => Operand.display v.1)) ++ ")"
  | .Column text => text
  | .Func text => text
  | .Param text => text
  | .Null => "NULL"
  | .Collection operands =>
    String.intercalate ", " (operands.attach.map (fun v => Operand.display v.1))
decreasing_by
  all_goals
    simp only [Operand.Tuple.sizeOf_spec, Operand.Collection.sizeOf_spec]
    have h := List.sizeOf_lt_of_mem v.2
    omega

/-- The `PrimaryKey` structure of `common.rs`. -/
structure PrimaryKey where
  partition : List String
  clustering : List String

/-- `impl Display for PrimaryKey` of `common.rs`. `Vec::join(", ")` is
modelled by `String.intercalate ", "`; `partition[0]` in the arity-one branch
is modelled by `headD` (the branch guarantees one element). -/
def PrimaryKey.display (pk : PrimaryKey) : String :=
  if pk.partition.isEmpty && pk.clustering.isEmpty then ""
  else if pk.partition.length = 1 then
    if pk.clustering.isEmpty then
      "PRIMARY KEY (" ++ pk.partition.headD "" ++ ")"
    else
      "PRIMARY KEY (" ++ pk.partition.headD "" ++ ", " ++
        String.intercalate ", " pk.clustering ++ ")"
  else
    "PRIMARY KEY ((" ++ String.intercalate ", " pk.partition ++ "), " ++
      String.intercalate ", " pk.clustering ++ ")"

/-- The `TtlTimestamp` structure of `common.rs` (`u64` modelled by `Nat`). -/
structure TtlTimestamp where
  ttl : Option Nat
  timestamp : Option Nat

/-- `impl Display for TtlTimestamp` of `common.rs`. -/
def TtlTimestamp.display (t : TtlTimestamp) : String :=
  let tl := match t.ttl with
    | some v => "TTL " ++ toString v
    | none => ""
  let tm := match t.timestamp with
    | some v => "TIMESTAMP " ++ toString v
    | none => ""
  if t.ttl.isSome && t.timestamp.isSome then
    " USING " ++ tl ++ " AND " ++ tm
  else
    " USING " ++ (if t.ttl.isSome then tl else tm)

/-- The `DataTypeName` enumeration of `common.rs`. -/
inductive DataTypeName where
  | Timestamp
  | Set
  | Ascii
  | BigInt
  | Blob
  | Boolean
  | Counter
  | Date
  | Decimal
  | Double
  | Float
  | Frozen
  | Inet
  | Int
  | List
  | Map
  | SmallInt
  | Text
  | Time
  | TimeUuid
  | TinyInt
  | Tuple
  | VarChar
  | VarInt
  | Uuid
  | Custom (name : String)
deriving DecidableEq

/-- `impl Display for DataTypeName` of `common.rs`: canonical uppercase token
for every built-in variant, the stored name verbatim for `Custom`. -/
def DataTypeName.display : DataTypeName → String
  | .Timestamp => "TIMESTAMP"
  | .Set => "SET"
  | .Ascii => "ASCII"
  | .BigInt => "BIGINT"
  | .Blob => "BLOB"
  | .Boolean => "BOOLEAN"
  | .Counter => "COUNTER"
  | .Date => "DATE"
  | .Decimal => "DECIMAL"
  | .Double => "DOUBLE"
  | .Float => "FLOAT"
  | .Frozen => "FROZEN"
  | .Inet => "INET"
  | .Int => "INT"
  | .List => "LIST"
  | .Map => "MAP"
  | .SmallInt => "SMALLINT"
  | .Text => "TEXT"
  | .Time => "TIME"
  | .TimeUuid => "TIMEUUID"
  | .TinyInt => "TINYINT"
  | .Tuple => "TUPLE"
  | .VarChar => "VARCHAR"
  | .VarInt => "VARINT"
  | .Uuid => "UUID"
  | .Custom name => name

/-- Models Rust `str::to_uppercase` for the ASCII range (the token alphabet of
this model): uppercases every character. -/
def rustToUppercase (s : String) : String := String.mk (s.data.map Char.toUpper)

/-- `DataTypeName::from` of `common.rs` (`from` is a Lean keyword, hence
`fromString`): uppercase the name, match it against the 25 built-in tokens,
and fall back to `Custom` holding the original (non-uppercased) name. -/
def DataTypeName.fromString (name : String) : DataTypeName :=
  let u := rustToUppercase name
  if u = "ASCII" then .Ascii
  else if u = "BIGINT" then .BigInt
  else if u = "BLOB" then .Blob
  else if u = "BOOLEAN" then .Boolean
  else if u = "COUNTER" then .Counter
  else if u = "DATE" then .Date
  else if u = "DECIMAL" then .Decimal
  else if u = "DOUBLE" then .Double
  else if u = "FLOAT" then .Float
  else if u = "FROZEN" then .Frozen
  else if u = "INET" then .Inet
  else if u = "INT" then .Int
  else if u = "LIST" then .List
  else if u = "MAP" then .Map
  else if u = "SET" then .Set
  else if u = "SMALLINT" then .SmallInt
  else if u = "TEXT" then .Text
  else if u = "TIME" then .Time
  else if u = "TIMESTAMP" then .Timestamp
  else if u = "TIMEUUID" then .TimeUuid
  else if u = "TINYINT" then .TinyInt
  else if u = "TUPLE" then .Tuple
  else if u = "UUID" then .Uuid
  else if u = "VARCHAR" then .VarChar
  else if u = "VARINT" then .VarInt
  else .Custom name

/-- `true` exactly on the 25 non-`Custom` variants of `DataTypeName`. -/
def DataTypeName.isBuiltin : DataTypeName → Bool
  | .Custom _ => false
  | _ => true

/-- The `RelationOperator` enumeration of `common.rs`. -/
inductive RelationOperator where
  | LessThan
  | LessThanOrEqual
  | Equal
  | NotEqual
  | GreaterThanOrEqual
  | GreaterThan
  | In
  | Contains
  | ContainsKey
  | IsNot
deriving DecidableEq

/-- `RelationOperator::eval` of `common.rs`: generic over any ordered type
(Rust `T: PartialOrd`, modelled by a linear order); delegates the six
comparison operators and returns `false` for the four membership operators. -/
def RelationOperator.eval {T : Type} [LinearOrder T] (op : RelationOperator)
    (left right : T) : Bool :=
  match op with
  | .LessThan => decide (left < right)
  | .LessThanOrEqual => decide (left ≤ right)
  | .Equal => decide (left = right)
  | .NotEqual => !(decide (left = right))
  | .GreaterThanOrEqual => decide (left ≥ right)
  | .GreaterThan => decide (left > right)
  | .In => false
  | .Contains => false
  | .ContainsKey => false
  | .IsNot => false

/-- The `RelationElement` structure of `common.rs`. -/
structure RelationElement where
  obj : Operand
  oper : RelationOperator
  value : Operand

/-- The column name on the left side of a relation element, when the left
operand is a `Column`. -/
def columnKey (relation_element : RelationElement) : Option String :=
  match relation_element.obj with
  | Operand.Column key => some key
  | _ => none

/-- Insertion into a key-sorted association list: models
`BTreeMap::get_mut(key).push(el)` / `BTreeMap::insert(key, vec![el])`. -/
def insertElement (key : String) (el : RelationElement) :
    List (String × List RelationElement) → List (String × List RelationElement)
  | [] => [(key, [el])]
  | (k, v) :: rest =>
    if key = k then (k, v ++ [el]) :: rest
    else if key < k then (key, [el]) :: (k, v) :: rest
    else (k, v) :: insertElement key el rest

/-- Association-list lookup, models `BTreeMap::get`. -/
def mapLookup (key : String) : List (String × List RelationElement) →
    Option (List RelationElement)
  | [] => none
  | (k, v) :: rest => if key = k then some v else mapLookup key rest

/-- The elements of a list whose left operand is the column `k`, in order. -/
def columnElements (k : String) (l : List RelationElement) : List RelationElement :=
  l.filter (fun el => columnKey el == some k)

/-- The keys of the association list are strictly increasing (the `BTreeMap`
iteration-order invariant). -/
def KeysSorted (m : List (String × List RelationElement)) : Prop :=
  m.Pairwise (fun a b => a.1 < b.1)

/-- The `WhereClause` utility of `common.rs`. -/
structure WhereClause where

/-- The body of the fold in `get_column_relation_element_map`: a relation
element whose left operand is a `Column` is appended to the group of that column,
anything else leaves the map unchanged. -/
def insertStep (result : List (String × List RelationElement))
    (relation_element : RelationElement) : List (String × List RelationElement) :=
  match relation_element.obj with
  | Operand.Column key => insertElement key relation_element result
  | _ => result

/-- `WhereClause::get_column_relation_element_map` of `common.rs`: fold over
the input, appending each element whose left operand is a `Column` to that
group of its column in a `BTreeMap` (modelled as a key-sorted association list). -/
def WhereClause.get_column_relation_element_map (where_clause : List RelationElement) :
    List (String × List RelationElement) :=
  where_clause.foldl insertStep []

/-- `WhereClause::get_column_list` of `common.rs`: the `HashSet` of column
names appearing as left operands (modelled as a `Finset`); the `filter_map`
body is the same left-column match as `columnKey`. -/
def WhereClause.get_column_list (where_clause : List RelationElement) : Finset String :=
  (where_clause.filterMap columnKey).toFinset

/-- A concrete three-element where-clause used as a witness input: two
column-left elements (on columns `b` and `a`, in that input order) and one
function-left element. -/
def exWhereClause : List RelationElement :=
  [⟨Operand.Column "b", RelationOperator.Equal, Operand.Const "1"⟩,
   ⟨Operand.Column "a", RelationOperator.Equal, Operand.Const "2"⟩,
   ⟨Operand.Func "f", RelationOperator.Equal, Operand.Const "3"⟩]

/-- Unfolding lemma for the `Tuple` arm of `Operand.display`. -/
theorem display_tuple_eq (values : List Operand) :
    Operand.display (Operand.Tuple values) =
      "(" ++ String.intercalate ", " (values.map Operand.display) ++ ")" := by
  rw [Operand.display, List.attach_map_val]

/-- Unfolding lemma for the `Collection` arm of `Operand.display`. -/
theorem display_collection_eq (operands : List Operand) :
    Operand.display (Operand.Collection operands) =
      String.intercalate ", " (operands.map Operand.display) := by
  rw [Operand.display, List.attach_map_val]

/-- C1 (counterexample): the claim says that a text without a single-quote is
wrapped in single-quotes by `escape`; on input `a` the code instead returns the
constant `a` unchanged, not the quoted form. -/
theorem escape_claim_counterexample :
    Operand.escape "a" = Operand.Const "a" ∧
    Operand.escape "a" ≠ Operand.Const (squoteStr ++ "a" ++ squoteStr) := by
  refine ⟨rfl, fun h => ?_⟩
  have h2 : "a" = squoteStr ++ "a" ++ squoteStr := by injection h
  exact absurd h2 (by decide)

/-- C1 (amended): `Operand::escape` returns the text unchanged as a constant
when it has no single-quote; wraps it in `$$` when it has a single-quote but no
`$$`; and doubles every single-quote and wraps in single-quotes when it has
both. -/
theorem escape_branches :
    (∀ txt : String, containsQuote txt.data = false →
      Operand.escape txt = Operand.Const txt) ∧
    (∀ txt : String, containsQuote txt.data = true →
      containsDollarDollar txt.data = false →
      Operand.escape txt = Operand.Const ("$$" ++ txt ++ "$$")) ∧
    (∀ txt : String, containsQuote txt.data = true →
      containsDollarDollar txt.data = true →
      Operand.escape txt =
        Operand.Const (squoteStr ++ String.mk (doubleQuotes txt.data) ++ squoteStr)) := by
  refine ⟨fun txt h => ?_, fun txt h1 h2 => ?_, fun txt h1 h2 => ?_⟩ <;>
    simp [Operand.escape, *]

/-- Witness for C1: the three branches of `escape_branches` at concrete inputs. -/
theorem escape_branches_witness :
    Operand.escape "55" = Operand.Const "55" ∧
    Operand.escape (String.mk ['a', squote, 'b']) =
      Operand.Const ("$$" ++ String.mk ['a', squote, 'b'] ++ "$$") ∧
    Operand.escape (String.mk [squote, '$', '$']) =
      Operand.Const (squoteStr ++ String.mk (doubleQuotes [squote, '$', '$']) ++ squoteStr) :=
  ⟨escape_branches.1 "55" (by decide),
   escape_branches.2.1 (String.mk ['a', squote, 'b']) (by decide) (by decide),
   escape_branches.2.2 (String.mk [squote, '$', '$']) (by decide) (by decide)⟩

/-- C2 (counterexample): the claim says an empty partition list renders the
empty string; with `partition = []` and `clustering = [c]` the code instead
renders the multi-column form `PRIMARY KEY ((), c)`. -/
theorem primaryKey_claim_counterexample :
    PrimaryKey.display { partition := [], clustering := ["c"] } = "PRIMARY KEY ((), c)" ∧
    PrimaryKey.display { partition := [], clustering := ["c"] } ≠ "" := by
  refine ⟨rfl, by decide⟩

/-- C2 (amended): `PrimaryKey` rendering selects the empty string only when
both the partition and the clustering lists are empty; a one-column partition
renders `PRIMARY KEY (p[, c...])`; every other case, including the degenerate
empty partition with non-empty clustering, takes the multi-column form
`PRIMARY KEY ((p, ...), c, ...)` (and never fails). -/
theorem primaryKey_display_arity :
    PrimaryKey.display { partition := [], clustering := [] } = "" ∧
    (∀ p, PrimaryKey.display { partition := [p], clustering := [] } =
      "PRIMARY KEY (" ++ p ++ ")") ∧
    (∀ p c cs, PrimaryKey.display { partition := [p], clustering := c :: cs } =
      "PRIMARY KEY (" ++ p ++ ", " ++ String.intercalate ", " (c :: cs) ++ ")") ∧
    (∀ p1 p2 ps cs, PrimaryKey.display { partition := p1 :: p2 :: ps, clustering := cs } =
      "PRIMARY KEY ((" ++ String.intercalate ", " (p1 :: p2 :: ps) ++ "), " ++
        String.intercalate ", " cs ++ ")") ∧
    (∀ c cs, PrimaryKey.display { partition := [], clustering := c :: cs } =
      "PRIMARY KEY ((), " ++ String.intercalate ", " (c :: cs) ++ ")") :=
  ⟨rfl, fun p => rfl, fun p c cs => rfl, fun p1 p2 ps cs => rfl, fun c cs => rfl⟩

/-- C5: `RelationOperator::eval` agrees with the ordering comparison for the
six comparison operators and returns `false` for `IN`, `CONTAINS`,
`CONTAINS KEY` and `IS NOT`, for all operand values of any ordered type. -/
theorem relationOperator_eval_spec {T : Type} [LinearOrder T] (left right : T) :
    (RelationOperator.eval RelationOperator.LessThan left right = true ↔ left < right) ∧
    (RelationOperator.eval RelationOperator.LessThanOrEqual left right = true ↔ left ≤ right) ∧
    (RelationOperator.eval RelationOperator.Equal left right = true ↔ left = right) ∧
    (RelationOperator.eval RelationOperator.NotEqual left right = true ↔ ¬left = right) ∧
    (RelationOperator.eval RelationOperator.GreaterThanOrEqual left right = true ↔ left ≥ right) ∧
    (RelationOperator.eval RelationOperator.GreaterThan left right = true ↔ left > right) ∧
    RelationOperator.eval RelationOperator.In left right = false ∧
    RelationOperator.eval RelationOperator.Contains left right = false ∧
    RelationOperator.eval RelationOperator.ContainsKey left right = false ∧
    RelationOperator.eval RelationOperator.IsNot left right = false := by
  simp [RelationOperator.eval]

/-- Witness for C5 at a concrete ordered pair of naturals. -/
theorem relationOperator_eval_spec_witness :
    RelationOperator.eval RelationOperator.LessThan (1 : Nat) 2 = true ∧
    RelationOperator.eval RelationOperator.In (1 : Nat) 2 = false :=
  ⟨(relationOperator_eval_spec (1 : Nat) 2).1.mpr (by decide),
   (relationOperator_eval_spec (1 : Nat) 2).2.2.2.2.2.2.1⟩

/-- C7: `Operand` rendering is exact per variant: text-carrying variants emit
their text verbatim, `Map`/`Set`/`List`/`Tuple` render their members in stored
order inside their delimiters, `Null` renders `NULL`, and `Collection` joins
its members with a comma and no surrounding delimiter. -/
theorem operand_display_spec :
    (∀ t, Operand.display (Operand.Const t) = t) ∧
    (∀ t, Operand.display (Operand.Column t) = t) ∧
    (∀ t, Operand.display (Operand.Func t) = t) ∧
    (∀ t, Operand.display (Operand.Param t) = t) ∧
    (∀ entries, Operand.display (Operand.Map entries) =
      "\x7b" ++ String.intercalate ", " (entries.map (fun p => p.1 ++ ":" ++ p.2)) ++ "\x7d") ∧
    (∀ values, Operand.display (Operand.Set values) =
      "\x7b" ++ String.intercalate ", " values ++ "\x7d") ∧
    (∀ values, Operand.display (Operand.List values) =
      "[" ++ String.intercalate ", " values ++ "]") ∧
    (∀ values, Operand.display (Operand.Tuple values) =
      "(" ++ String.intercalate ", " (values.map Operand.display) ++ ")") ∧
    Operand.display Operand.Null = "NULL" ∧
    (∀ operands, Operand.display (Operand.Collection operands) =
      String.intercalate ", " (operands.map Operand.display)) ∧
    Operand.display (Operand.Map [("a", "1"), ("b", "2")]) = "\x7ba:1, b:2\x7d" ∧
    Operand.display (Operand.Set ["x", "y"]) = "\x7bx, y\x7d" ∧
    Operand.display (Operand.List ["x", "y"]) = "[x, y]" ∧
    Operand.display (Operand.Tuple [Operand.Const "1", Operand.Const "2"]) = "(1, 2)" ∧
    Operand.display (Operand.Collection [Operand.Const "1", Operand.Const "2"]) = "1, 2" := by
  refine ⟨fun t => by simp [Operand.display], fun t => by simp [Operand.display],
    fun t => by simp [Operand.display], fun t => by simp [Operand.display],
    fun entries => by simp [Operand.display], fun values => by simp [Operand.display],
    fun values => by simp [Operand.display], display_tuple_eq,
    by simp [Operand.display], display_collection_eq, ?_, ?_, ?_, ?_, ?_⟩
  · simp [Operand.display]
    decide
  · simp [Operand.display]
    decide
  · simp [Operand.display]
    decide
  · rw [display_tuple_eq]
    simp [Operand.display]
    decide
  · rw [display_collection_eq]
    simp [Operand.display]
    decide

/-- C9: `Operand::unescape` is total even on inputs shorter than a delimiter
pair: a lone single-quote, `$$` and `$$$` all yield the empty string because an
exhausted character iterator simply yields nothing. -/
theorem unescape_short_inputs :
    Operand.unescape squoteStr = "" ∧
    Operand.unescape "$$" = "" ∧
    Operand.unescape "$$$" = "" := by decide

/-- C10: `TtlTimestamp` rendering: both fields absent gives the degenerate
text ` USING `; one field present gives ` USING TTL n` or
` USING TIMESTAMP n`; both present gives ` USING TTL n AND TIMESTAMP m`. -/
theorem ttlTimestamp_display_forms :
    TtlTimestamp.display { ttl := none, timestamp := none } = " USING " ∧
    (∀ n : Nat, TtlTimestamp.display { ttl := some n, timestamp := none } =
      " USING TTL " ++ toString n) ∧
    (∀ n : Nat, TtlTimestamp.display { ttl := none, timestamp := some n } =
      " USING TIMESTAMP " ++ toString n) ∧
    (∀ n m : Nat, TtlTimestamp.display { ttl := some n, timestamp := some m } =
      " USING TTL " ++ toString n ++ " AND TIMESTAMP " ++ toString m) :=
  ⟨rfl, fun n => rfl, fun n => rfl, fun n m => by
    simp only [TtlTimestamp.display, String.append_assoc]
    rfl⟩

/-- A constructed string recovers its character list. -/
theorem data_mk (l : List Char) : (String.mk l).data = l := rfl

/-- A string is the string of its character list. -/
theorem mk_data (s : String) : String.mk s.data = s := rfl

/-- Dropping the last element of a list extended by one element on the right
recovers the list. -/
theorem dropLast_append_single (l : List Char) (a : Char) : (l ++ [a]).dropLast = l := by
  simp

/-- A list without any single-quote does not start with a single-quote. -/
theorem startsWithQuote_eq_false (l : List Char) (h : containsQuote l = false) :
    startsWithQuote l = false := by
  cases l with
  | nil => rfl
  | cons c rest =>
    simp only [containsQuote, Bool.or_eq_false_iff] at h
    simp [startsWithQuote, h.1]

/-- A list without the substring `$$` does not start with `$$`. -/
theorem startsWithDollarDollar_eq_false (l : List Char) (h : containsDollarDollar l = false) :
    startsWithDollarDollar l = false := by
  match l with
  | [] => rfl
  | [c] => rfl
  | c1 :: c2 :: rest =>
    simp only [containsDollarDollar, Bool.or_eq_false_iff] at h
    simp [startsWithDollarDollar, h.1]

/-- C3: `Operand::unescape` is total and follows exactly three branches: a
value starting with a single-quote loses its first and last characters and has
every doubled single-quote collapsed; a value starting with `$$` loses its
first two and last two characters with no substitution; anything else (numeric
literals, bare identifiers, `NULL`) is returned unchanged. -/
theorem unescape_branches :
    (∀ l : List Char, Operand.unescape (String.mk (squote :: l)) =
      String.mk (replaceDoubledQuote l.dropLast)) ∧
    (∀ l : List Char, Operand.unescape (String.mk ('$' :: '$' :: l)) =
      String.mk (l.dropLast.dropLast)) ∧
    (∀ value : String, startsWithQuote value.data = false →
      startsWithDollarDollar value.data = false →
      Operand.unescape value = value) ∧
    Operand.unescape "55" = "55" ∧
    Operand.unescape (Operand.display Operand.Null) = Operand.display Operand.Null := by
  refine ⟨fun l => rfl, fun l => rfl, fun value h1 h2 => ?_, by decide, ?_⟩
  · simp [Operand.unescape, h1, h2]
  · have hnull : Operand.display Operand.Null = "NULL" := by simp [Operand.display]
    rw [hnull]
    decide

/-- Witness for C3: the pass-through branch applied to the numeric literal 55. -/
theorem unescape_branches_witness : Operand.unescape "55" = "55" :=
  unescape_branches.2.2.1 "55" (by decide) (by decide)

/-- C4: escape and unescape are inverse on the constant payload for inputs
without the substring `$$`: unescaping the text held inside the constant
produced by `Operand::escape` yields the original string. -/
theorem unescape_escape_inverse (x : String) (hx : containsDollarDollar x.data = false) :
    ∀ t, Operand.escape x = Operand.Const t → Operand.unescape t = x := by
  intro t ht
  by_cases hq : containsQuote x.data = true
  · rw [Operand.escape, if_pos hq, if_neg (by simp [hx])] at ht
    have ht2 : t = "$$" ++ x ++ "$$" := by injection ht with h; exact h.symm
    rw [ht2]
    have hdata : ("$$" ++ x ++ "$$").data = '$' :: '$' :: (x.data ++ ['$', '$']) := rfl
    rw [Operand.unescape, hdata]
    have h1 : startsWithQuote ('$' :: '$' :: (x.data ++ ['$', '$'])) = false := rfl
    rw [if_neg (by simp [h1])]
    rw [if_pos (by simp [startsWithDollarDollar])]
    have hdrop : ('$' :: '$' :: (x.data ++ ['$', '$'])).drop 2 = x.data ++ ['$', '$'] := rfl
    rw [hdrop, show x.data ++ ['$', '$'] = (x.data ++ ['$']) ++ ['$'] by simp,
      dropLast_append_single, dropLast_append_single, mk_data]
  · have hq' : containsQuote x.data = false := by
      cases h : containsQuote x.data
      · rfl
      · exact absurd h hq
    rw [Operand.escape, if_neg (by simp [hq'])] at ht
    have ht2 : t = x := by injection ht with h; exact h.symm
    rw [ht2]
    rw [Operand.unescape, if_neg (by simp [startsWithQuote_eq_false x.data hq']),
      if_neg (by simp [startsWithDollarDollar_eq_false x.data hx])]

/-- Witness for C4: a payload containing a single-quote round-trips through
the dollar-quoted constant. -/
theorem unescape_escape_inverse_witness :
    Operand.unescape ("$$" ++ String.mk ['a', squote, 'b'] ++ "$$") =
      String.mk ['a', squote, 'b'] :=
  unescape_escape_inverse (String.mk ['a', squote, 'b']) (by decide) _ rfl

set_option maxHeartbeats 1000000 in
/-- Master case split for `DataTypeName::from`: either the uppercased input is
the canonical token of the (built-in) result, or the result is `Custom` with
the input held verbatim. -/
theorem fromString_spec (s : String) :
    (DataTypeName.isBuiltin (DataTypeName.fromString s) = true ∧
      rustToUppercase s = DataTypeName.display (DataTypeName.fromString s)) ∨
    DataTypeName.fromString s = DataTypeName.Custom s := by
  by_cases h1 : rustToUppercase s = "ASCII"
  · refine Or.inl ?_
    have he : DataTypeName.fromString s = DataTypeName.Ascii := by
      simp only [DataTypeName.fromString, h1]
      rfl
    rw [he]
    exact ⟨rfl, h1⟩
  by_cases h2 : rustToUppercase s = "BIGINT"
  · refine Or.inl ?_
    have he : DataTypeName.fromString s = DataTypeName.BigInt := by
      simp only [DataTypeName.fromString, h2]
      rfl
    rw [he]
    exact ⟨rfl, h2⟩
  by_cases h3 : rustToUppercase s = "BLOB"
  · refine Or.inl ?_
    have he : DataTypeName.fromString s = DataTypeName.Blob := by
      simp only [DataTypeName.fromString, h3]
      rfl
    rw [he]
    exact ⟨rfl, h3⟩
  by_cases h4 : rustToUppercase s = "BOOLEAN"
  · refine Or.inl ?_
    have he : DataTypeName.fromString s = DataTypeName.Boolean := by
      simp only [DataTypeName.fromString, h4]
      rfl
    rw [he]
    exact ⟨rfl, h4⟩
  by_cases h5 : rustToUppercase s = "COUNTER"
  · refine Or.inl ?_
    have he : DataTypeName.fromString s = DataTypeName.Counter := by
      simp only [DataTypeName.fromString, h5]
      rfl
    rw [he]
    exact ⟨rfl, h5⟩
  by_cases h6 : rustToUppercase s = "DATE"
  · refine Or.inl ?_
    have he : DataTypeName.fromString s = DataTypeName.Date := by
      simp only [DataTypeName.fromString, h6]
      rfl
    rw [he]
    exact ⟨rfl, h6⟩
  by_cases h7 : rustToUppercase s = "DECIMAL"
  · refine Or.inl ?_
    have he : DataTypeName.fromString s = DataTypeName.Decimal := by
      simp only [DataTypeName.fromString, h7]
      rfl
    rw [he]
    exact ⟨rfl, h7⟩
  by_cases h8 : rustToUppercase s = "DOUBLE"
  · refine Or.inl ?_
    have he : DataTypeName.fromString s = DataTypeName.Double := by
      simp only [DataTypeName.fromString, h8]
      rfl
    rw [he]
    exact ⟨rfl, h8⟩
  by_cases h9 : rustToUppercase s = "FLOAT"
  · refine Or.inl ?_
    have he : DataTypeName.fromString s = DataTypeName.Float := by
      simp only [DataTypeName.fromString, h9]
      rfl
    rw [he]
    exact ⟨rfl, h9⟩
  by_cases h10 : rustToUppercase s = "FROZEN"
  · refine Or.inl ?_
    have he : DataTypeName.fromString s = DataTypeName.Frozen := by
      simp only [DataTypeName.fromString, h10]
      rfl
    rw [he]
    exact ⟨rfl, h10⟩
  by_cases h11 : rustToUppercase s = "INET"
  · refine Or.inl ?_
    have he : DataTypeName.fromString s = DataTypeName.Inet := by
      simp only [DataTypeName.fromString, h11]
      rfl
    rw [he]
    exact ⟨rfl, h11⟩
  by_cases h12 : rustToUppercase s = "INT"
  · refine Or.inl ?_
    have he : DataTypeName.fromString s = DataTypeName.Int := by
      simp only [DataTypeName.fromString, h12]
      rfl
    rw [he]
    exact ⟨rfl, h12⟩
  by_cases h13 : rustToUppercase s = "LIST"
  · refine Or.inl ?_
    have he : DataTypeName.fromString s = DataTypeName.List := by
      simp only [DataTypeName.fromString, h13]
      rfl
    rw [he]
    exact ⟨rfl, h13⟩
  by_cases h14 : rustToUppercase s = "MAP"
  · refine Or.inl ?_
    have he : DataTypeName.fromString s = DataTypeName.Map := by
      simp only [DataTypeName.fromString, h14]
      rfl
    rw [he]
    exact ⟨rfl, h14⟩
  by_cases h15 : rustToUppercase s = "SET"
  · refine Or.inl ?_
    have he : DataTypeName.fromString s = DataTypeName.Set := by
      simp only [DataTypeName.fromString, h15]
      rfl
    rw [he]
    exact ⟨rfl, h15⟩
  by_cases h16 : rustToUppercase s = "SMALLINT"
  · refine Or.inl ?_
    have he : DataTypeName.fromString s = DataTypeName.SmallInt := by
      simp only [DataTypeName.fromString, h16]
      rfl
    rw [he]
    exact ⟨rfl, h16⟩
  by_cases h17 : rustToUppercase s = "TEXT"
  · refine Or.inl ?_
    have he : DataTypeName.fromString s = DataTypeName.Text := by
      simp only [DataTypeName.fromString, h17]
      rfl
    rw [he]
    exact ⟨rfl, h17⟩
  by_cases h18 : rustToUppercase s = "TIME"
  · refine Or.inl ?_
    have he : DataTypeName.fromString s = DataTypeName.Time := by
      simp only [DataTypeName.fromString, h18]
      rfl
    rw [he]
    exact ⟨rfl, h18⟩
  by_cases h19 : rustToUppercase s = "TIMESTAMP"
  · refine Or.inl ?_
    have he : DataTypeName.fromString s = DataTypeName.Timestamp := by
      simp only [DataTypeName.fromString, h19]
      rfl
    rw [he]
    exact ⟨rfl, h19⟩
  by_cases h20 : rustToUppercase s = "TIMEUUID"
  · refine Or.inl ?_
    have he : DataTypeName.fromString s = DataTypeName.TimeUuid := by
      simp only [DataTypeName.fromString, h20]
      rfl
    rw [he]
    exact ⟨rfl, h20⟩
  by_cases h21 : rustToUppercase s = "TINYINT"
  · refine Or.inl ?_
    have he : DataTypeName.fromString s = DataTypeName.TinyInt := by
      simp only [DataTypeName.fromString, h21]
      rfl
    rw [he]
    exact ⟨rfl, h21⟩
  by_cases h22 : rustToUppercase s = "TUPLE"
  · refine Or.inl ?_
    have he : DataTypeName.fromString s = DataTypeName.Tuple := by
      simp only [DataTypeName.fromString, h22]
      rfl
    rw [he]
    exact ⟨rfl, h22⟩
  by_cases h23 : rustToUppercase s = "UUID"
  · refine Or.inl ?_
    have he : DataTypeName.fromString s = DataTypeName.Uuid := by
      simp only [DataTypeName.fromString, h23]
      rfl
    rw [he]
    exact ⟨rfl, h23⟩
  by_cases h24 : rustToUppercase s = "VARCHAR"
  · refine Or.inl ?_
    have he : DataTypeName.fromString s = DataTypeName.VarChar := by
      simp only [DataTypeName.fromString, h24]
      rfl
    rw [he]
    exact ⟨rfl, h24⟩
  by_cases h25 : rustToUppercase s = "VARINT"
  · refine Or.inl ?_
    have he : DataTypeName.fromString s = DataTypeName.VarInt := by
      simp only [DataTypeName.fromString, h25]
      rfl
    rw [he]
    exact ⟨rfl, h25⟩
  refine Or.inr ?_
  simp only [DataTypeName.fromString]
  rw [if_neg h1, if_neg h2, if_neg h3, if_neg h4, if_neg h5, if_neg h6, if_neg h7, if_neg h8, if_neg h9, if_neg h10, if_neg h11, if_neg h12, if_neg h13, if_neg h14, if_neg h15, if_neg h16, if_neg h17, if_neg h18, if_neg h19, if_neg h20, if_neg h21, if_neg h22, if_neg h23, if_neg h24, if_neg h25]

/-- C8 (counterexample): the claim that `from(s)` equals `from(s uppercased)`
for every string fails for non-built-in names: `Custom` keeps the original
string verbatim, so lowercase custom names differ from their uppercased
lookup. -/
theorem dataTypeName_claim_counterexample :
    DataTypeName.fromString "foo" = DataTypeName.Custom "foo" ∧
    DataTypeName.fromString (rustToUppercase "foo") = DataTypeName.Custom "FOO" ∧
    DataTypeName.fromString "foo" ≠ DataTypeName.fromString (rustToUppercase "foo") := by
  decide

/-- C8 (amended): lookup is case-insensitive on the 25 built-in tokens (a
string maps to a built-in variant exactly when its uppercasing is that
canonical token of that (built-in) variant, so all case variants of a token agree); every
unrecognized string maps to `Custom` holding it verbatim; rendering is the
canonical uppercase token for built-ins and verbatim for `Custom`; and
`from(render(t)) = t` for every built-in variant `t`. -/
theorem dataTypeName_lookup_render :
    (∀ t : DataTypeName, DataTypeName.isBuiltin t = true →
      DataTypeName.fromString (DataTypeName.display t) = t) ∧
    (∀ (s : String) (t : DataTypeName), DataTypeName.isBuiltin t = true →
      rustToUppercase s = DataTypeName.display t → DataTypeName.fromString s = t) ∧
    (∀ s : String, DataTypeName.isBuiltin (DataTypeName.fromString s) = true →
      rustToUppercase s = DataTypeName.display (DataTypeName.fromString s)) ∧
    (∀ s : String, DataTypeName.isBuiltin (DataTypeName.fromString s) = false →
      DataTypeName.fromString s = DataTypeName.Custom s) ∧
    (∀ s : String, DataTypeName.display (DataTypeName.Custom s) = s) := by
  refine ⟨?_, ?_, ?_, ?_, fun s => rfl⟩
  · intro t ht
    cases t <;> first | rfl | simp [DataTypeName.isBuiltin] at ht
  · intro s t ht hu
    cases t <;> simp only [DataTypeName.display] at hu <;>
      first
        | (simp only [DataTypeName.fromString, hu]; rfl)
        | simp [DataTypeName.isBuiltin] at ht
  · intro s hb
    rcases fromString_spec s with ⟨_, h⟩ | h
    · exact h
    · rw [h] at hb
      simp [DataTypeName.isBuiltin] at hb
  · intro s hb
    rcases fromString_spec s with ⟨h, _⟩ | h
    · rw [h] at hb
      cases hb
    · exact h

/-- Witness for C8: the mixed-case string `tExT` is recognized as the `TEXT`
built-in. -/
theorem dataTypeName_lookup_render_witness :
    DataTypeName.fromString "tExT" = DataTypeName.Text :=
  dataTypeName_lookup_render.2.1 "tExT" DataTypeName.Text (by decide) (by decide)

/-- Every key of the map after an insertion is the inserted key or one of the
previous keys. -/
theorem insertElement_keys (key : String) (el : RelationElement) :
    ∀ m p, p ∈ insertElement key el m → p.1 = key ∨ p.1 ∈ m.map Prod.fst := by
  intro m
  induction m with
  | nil =>
    intro p hp
    simp only [insertElement, List.mem_singleton] at hp
    subst hp
    exact Or.inl rfl
  | cons kv rest ih =>
    obtain ⟨k, v⟩ := kv
    intro p hp
    simp only [insertElement] at hp
    split_ifs at hp with h1 h2
    · rcases List.mem_cons.mp hp with rfl | hp'
      · right; simp
      · right
        simp only [List.map_cons, List.mem_cons]
        exact Or.inr (List.mem_map_of_mem Prod.fst hp')
    · rcases List.mem_cons.mp hp with rfl | hp'
      · exact Or.inl rfl
      · right
        exact List.mem_map_of_mem Prod.fst hp'
    · rcases List.mem_cons.mp hp with rfl | hp'
      · right; simp
      · rcases ih p hp' with h | h
        · exact Or.inl h
        · right
          simp only [List.map_cons, List.mem_cons]
          exact Or.inr h

/-- Insertion preserves the strictly-increasing-keys invariant. -/
theorem insertElement_sorted (key : String) (el : RelationElement) :
    ∀ m, KeysSorted m → KeysSorted (insertElement key el m) := by
  intro m
  induction m with
  | nil =>
    intro _
    simp [insertElement, KeysSorted]
  | cons kv rest ih =>
    obtain ⟨k, v⟩ := kv
    intro hs
    rw [KeysSorted, List.pairwise_cons] at hs
    obtain ⟨hk, hrest⟩ := hs
    simp only [insertElement]
    split_ifs with h1 h2
    · rw [KeysSorted, List.pairwise_cons]
      exact ⟨hk, hrest⟩
    · rw [KeysSorted, List.pairwise_cons]
      refine ⟨?_, List.pairwise_cons.mpr ⟨hk, hrest⟩⟩
      intro b hb
      rcases List.mem_cons.mp hb with rfl | hb'
      · exact h2
      · exact lt_trans h2 (hk b hb')
    · rw [KeysSorted, List.pairwise_cons]
      refine ⟨?_, ih hrest⟩
      intro b hb
      have hkey : k < key := lt_of_le_of_ne (not_lt.mp h2) (fun e => h1 e.symm)
      rcases insertElement_keys key el rest b hb with hb1 | hb2
      · rw [hb1]
        exact hkey
      · rcases List.mem_map.mp hb2 with ⟨q, hq, hq2⟩
        rw [← hq2]
        exact hk q hq

/-- Lookup misses every list whose keys all differ from the key sought. -/
theorem mapLookup_eq_none (key : String) :
    ∀ m, (∀ p ∈ m, key ≠ p.1) → mapLookup key m = none := by
  intro m
  induction m with
  | nil => intro _; rfl
  | cons kv rest ih =>
    intro h
    obtain ⟨k, v⟩ := kv
    simp only [mapLookup]
    rw [if_neg (h (k, v) (List.mem_cons_self _ _))]
    exact ih (fun p hp => h p (List.mem_cons_of_mem _ hp))

/-- Lookup of a different key is unchanged by an insertion. -/
theorem mapLookup_insertElement_ne (key k : String) (el : RelationElement)
    (hne : ¬k = key) :
    ∀ m, mapLookup k (insertElement key el m) = mapLookup k m := by
  intro m
  induction m with
  | nil =>
    simp only [insertElement, mapLookup]
    rw [if_neg hne]
  | cons kv rest ih =>
    obtain ⟨k0, v0⟩ := kv
    by_cases h1 : key = k0
    · rw [show insertElement key el ((k0, v0) :: rest) = (k0, v0 ++ [el]) :: rest from by
        simp [insertElement, h1]]
      simp only [mapLookup]
      by_cases hk : k = k0
      · exact absurd (hk.trans h1.symm) hne
      · rw [if_neg hk, if_neg hk]
    · by_cases h2 : key < k0
      · rw [show insertElement key el ((k0, v0) :: rest) =
            (key, [el]) :: (k0, v0) :: rest from by simp [insertElement, h1, h2]]
        simp only [mapLookup]
        rw [if_neg hne]
      · rw [show insertElement key el ((k0, v0) :: rest) =
            (k0, v0) :: insertElement key el rest from by simp [insertElement, h1, h2]]
        simp only [mapLookup]
        by_cases hk : k = k0
        · rw [if_pos hk, if_pos hk]
        · rw [if_neg hk, if_neg hk]
          exact ih

/-- Lookup of the inserted key after insertion into a sorted map: its previous
group (empty when absent) extended by the new element on the right. -/
theorem mapLookup_insertElement_self (key : String) (el : RelationElement) :
    ∀ m, KeysSorted m →
      mapLookup key (insertElement key el m) =
        some (((mapLookup key m).getD []) ++ [el]) := by
  intro m
  induction m with
  | nil =>
    intro _
    simp [insertElement, mapLookup]
  | cons kv rest ih =>
    obtain ⟨k0, v0⟩ := kv
    intro hs
    rw [KeysSorted, List.pairwise_cons] at hs
    obtain ⟨hk0, hrest⟩ := hs
    by_cases h1 : key = k0
    · rw [show insertElement key el ((k0, v0) :: rest) = (k0, v0 ++ [el]) :: rest from by
        simp [insertElement, h1]]
      rw [show mapLookup key ((k0, v0 ++ [el]) :: rest) = some (v0 ++ [el]) from by
        simp [mapLookup, h1]]
      rw [show mapLookup key ((k0, v0) :: rest) = some v0 from by simp [mapLookup, h1]]
      rfl
    · by_cases h2 : key < k0
      · rw [show insertElement key el ((k0, v0) :: rest) =
            (key, [el]) :: (k0, v0) :: rest from by simp [insertElement, h1, h2]]
        rw [show mapLookup key ((key, [el]) :: (k0, v0) :: rest) = some [el] from by
          simp [mapLookup]]
        have habs : mapLookup key ((k0, v0) :: rest) = none := by
          apply mapLookup_eq_none
          intro p hp
          rcases List.mem_cons.mp hp with rfl | hp2
          · exact fun e => absurd (e ▸ h2) (lt_irrefl _)
          · exact fun e => absurd (e ▸ lt_trans h2 (hk0 p hp2)) (lt_irrefl _)
        rw [habs]
        rfl
      · rw [show insertElement key el ((k0, v0) :: rest) =
            (k0, v0) :: insertElement key el rest from by simp [insertElement, h1, h2]]
        rw [show mapLookup key ((k0, v0) :: insertElement key el rest) =
            mapLookup key (insertElement key el rest) from by simp [mapLookup, h1]]
        rw [show mapLookup key ((k0, v0) :: rest) = mapLookup key rest from by
          simp [mapLookup, h1]]
        exact ih hrest

/-- A relation element with a column key has that column as left operand. -/
theorem columnKey_some_obj (el : RelationElement) (key : String)
    (h : columnKey el = some key) : el.obj = Operand.Column key := by
  cases hobj : el.obj <;> simp_all [columnKey]

/-- The fold step ignores elements whose left operand is not a column. -/
theorem insertStep_none (m : List (String × List RelationElement)) (el : RelationElement)
    (h : columnKey el = none) : insertStep m el = m := by
  cases hobj : el.obj <;> simp_all [columnKey, insertStep]

/-- The fold step inserts elements whose left operand is a column. -/
theorem insertStep_column (m : List (String × List RelationElement)) (el : RelationElement)
    (key : String) (h : el.obj = Operand.Column key) :
    insertStep m el = insertElement key el m := by
  simp [insertStep, h]

/-- Unfolding of the per-column filter over a cons cell. -/
theorem columnElements_cons (k : String) (el : RelationElement) (rest : List RelationElement) :
    columnElements k (el :: rest) =
      if columnKey el = some k then el :: columnElements k rest
      else columnElements k rest := by
  by_cases h : columnKey el = some k
  · simp [columnElements, List.filter_cons, h]
  · simp [columnElements, List.filter_cons, h]

/-- The fold preserves the sorted-keys invariant. -/
theorem foldl_insertStep_sorted :
    ∀ (wc : List RelationElement) m, KeysSorted m →
      KeysSorted (List.foldl insertStep m wc) := by
  intro wc
  induction wc with
  | nil => intro m h; exact h
  | cons el rest ih =>
    intro m h
    rw [List.foldl_cons]
    apply ih
    cases hck : columnKey el with
    | none => rw [insertStep_none m el hck]; exact h
    | some key =>
      rw [insertStep_column m el key (columnKey_some_obj el key hck)]
      exact insertElement_sorted key el m h

/-- Lookup in the fold of the grouping step over a sorted accumulator: the
group of `k` is its accumulated group extended by exactly the elements of the
input whose left column is `k`, in input order. -/
theorem foldl_insertStep_lookup (k : String) :
    ∀ (wc : List RelationElement) m, KeysSorted m →
      mapLookup k (List.foldl insertStep m wc) =
        match mapLookup k m with
        | some v => some (v ++ columnElements k wc)
        | none =>
          if (columnElements k wc).isEmpty then none
          else some (columnElements k wc) := by
  intro wc
  induction wc with
  | nil =>
    intro m hs
    cases h : mapLookup k m <;> simp [columnElements, h]
  | cons el rest ih =>
    intro m hs
    rw [List.foldl_cons]
    cases hck : columnKey el with
    | none =>
      have hce : columnElements k (el :: rest) = columnElements k rest := by
        rw [columnElements_cons, if_neg (by simp [hck])]
      rw [insertStep_none m el hck, ih m hs, hce]
    | some key =>
      have hobj := columnKey_some_obj el key hck
      rw [insertStep_column m el key hobj]
      have hs2 := insertElement_sorted key el m hs
      rw [ih (insertElement key el m) hs2]
      by_cases hk : k = key
      · subst hk
        have hce : columnElements k (el :: rest) = el :: columnElements k rest := by
          rw [columnElements_cons, if_pos hck]
        rw [hce, mapLookup_insertElement_self k el m hs]
        cases hm : mapLookup k m <;> simp [hm]
      · have hce : columnElements k (el :: rest) = columnElements k rest := by
          rw [columnElements_cons, if_neg (by rw [hck]; simp; exact fun e => hk e.symm)]
        rw [hce, mapLookup_insertElement_ne key k el hk m]

/-- In a sorted map, every stored entry is found by looking up its key. -/
theorem mapLookup_of_mem :
    ∀ m, KeysSorted m → ∀ p, p ∈ m → mapLookup p.1 m = some p.2 := by
  intro m
  induction m with
  | nil =>
    intro _ p hp
    simp at hp
  | cons kv rest ih =>
    intro hs p hp
    obtain ⟨k0, v0⟩ := kv
    rw [KeysSorted, List.pairwise_cons] at hs
    obtain ⟨hk0, hrest⟩ := hs
    rcases List.mem_cons.mp hp with rfl | hp2
    · simp [mapLookup]
    · have hlt : k0 < p.1 := hk0 p hp2
      simp only [mapLookup]
      rw [if_neg (ne_of_gt hlt), ih hrest p hp2]

/-- C6: the grouping utilities of `WhereClause`: looking up any column name in
`get_column_relation_element_map` yields exactly the subsequence (in input
order) of elements whose left operand is that column, and nothing for names
with no such element; the map keys are strictly (lexicographically) increasing,
so iteration order is deterministic and independent of input order; every
stored group is the non-empty left-column filter for its key (so elements with
non-column left operands belong to no group); and `get_column_list` is exactly
the deduplicated set of left-operand column names. -/
theorem whereClause_grouping_spec :
    (∀ (wc : List RelationElement) (k : String),
      mapLookup k (WhereClause.get_column_relation_element_map wc) =
        if (columnElements k wc).isEmpty then none else some (columnElements k wc)) ∧
    (∀ wc : List RelationElement,
      KeysSorted (WhereClause.get_column_relation_element_map wc)) ∧
    (∀ (wc : List RelationElement) (p : String × List RelationElement),
      p ∈ WhereClause.get_column_relation_element_map wc →
        p.2 = columnElements p.1 wc ∧ p.2 ≠ []) ∧
    (∀ (wc : List RelationElement) (k : String),
      k ∈ WhereClause.get_column_list wc ↔ ∃ el ∈ wc, el.obj = Operand.Column k) := by
  have hsorted : ∀ wc : List RelationElement,
      KeysSorted (WhereClause.get_column_relation_element_map wc) := by
    intro wc
    exact foldl_insertStep_sorted wc [] List.Pairwise.nil
  have hlook : ∀ (wc : List RelationElement) (k : String),
      mapLookup k (WhereClause.get_column_relation_element_map wc) =
        if (columnElements k wc).isEmpty then none else some (columnElements k wc) := by
    intro wc k
    rw [WhereClause.get_column_relation_element_map,
      foldl_insertStep_lookup k wc [] List.Pairwise.nil]
    rfl
  refine ⟨hlook, hsorted, ?_, ?_⟩
  · intro wc p hp
    have h1 := mapLookup_of_mem (WhereClause.get_column_relation_element_map wc)
      (hsorted wc) p hp
    rw [hlook wc p.1] at h1
    by_cases he : (columnElements p.1 wc).isEmpty
    · rw [if_pos he] at h1
      cases h1
    · rw [if_neg he] at h1
      have h2 : p.2 = columnElements p.1 wc := by
        injection h1 with h
        exact h.symm
      refine ⟨h2, ?_⟩
      rw [h2]
      intro hnil
      rw [hnil] at he
      exact he rfl
  · intro wc k
    rw [WhereClause.get_column_list]
    rw [List.mem_toFinset, List.mem_filterMap]
    constructor
    · rintro ⟨el, hel, hck⟩
      exact ⟨el, hel, columnKey_some_obj el k hck⟩
    · rintro ⟨el, hel, hobj⟩
      exact ⟨el, hel, by simp [columnKey, hobj]⟩

/-- Witness for C6: in the concrete three-element where-clause, the stored
group of column `a` is exactly its (non-empty) left-column filter. -/
theorem whereClause_grouping_spec_witness :
    [(⟨Operand.Column "a", RelationOperator.Equal, Operand.Const "2"⟩ : RelationElement)] =
      columnElements "a" exWhereClause ∧
    ([(⟨Operand.Column "a", RelationOperator.Equal, Operand.Const "2"⟩ : RelationElement)] :
      List RelationElement) ≠ [] := by
  have hmem : (("a",
      [(⟨Operand.Column "a", RelationOperator.Equal, Operand.Const "2"⟩ : RelationElement)]) :
      String × List RelationElement) ∈
      WhereClause.get_column_relation_element_map exWhereClause := by
    have hab : ("a" : String) < "b" := by
      rw [String.lt_iff_toList_lt]
      decide
    rw [show WhereClause.get_column_relation_element_map exWhereClause =
      [("a", [⟨Operand.Column "a", RelationOperator.Equal, Operand.Const "2"⟩]),
       ("b", [⟨Operand.Column "b", RelationOperator.Equal, Operand.Const "1"⟩])] from by
        simp [WhereClause.get_column_relation_element_map, exWhereClause, insertStep,
          columnKey, insertElement, hab]]
    exact List.mem_cons_self _ _
  have h := whereClause_grouping_spec.2.2.1 exWhereClause _ hmem
  exact ⟨h.1, h.2⟩
